import Mathlib

/-!
Verification of the IIR filter design engine of `libembedded`
(`include/embedded/signal/...`, `include/embedded/constexpr_math/...`).

The C++ source is templated over a scalar type `F`; we embed it shallowly
over an arbitrary `LinearOrderedField` (instantiated at `ℝ` for the parts
that use transcendental functions, and at `ℚ` for concrete executable
witnesses).  Compile-time-sized `cmath::vector`s become Lean lists,
`cmath::complex<F>` becomes a pair structure, and the template recursion
of the design pipeline becomes structural recursion.
-/

namespace LibEmbedded

/-- `cmath::complex<F>`: a real/imaginary pair. -/
structure cplx (F : Type) where
  re : F
  im : F
deriving DecidableEq, Repr

namespace cplx

variable {F : Type}

/-- `operator+(complex, complex)`. -/
def cadd [Add F] (a b : cplx F) : cplx F := ⟨a.re + b.re, a.im + b.im⟩

/-- `operator-(complex)` (unary negation). -/
def cneg [Neg F] (a : cplx F) : cplx F := ⟨-a.re, -a.im⟩

/-- `operator-(complex, complex)`. -/
def csub [Sub F] (a b : cplx F) : cplx F := ⟨a.re - b.re, a.im - b.im⟩

/-- `operator*(complex, complex)`. -/
def cmul [Mul F] [Add F] [Sub F] (a b : cplx F) : cplx F :=
  ⟨a.re * b.re - a.im * b.im, a.re * b.im + b.re * a.im⟩

/-- `complex::norm()`: squared modulus. -/
def cnorm [Mul F] [Add F] (a : cplx F) : F := a.re * a.re + a.im * a.im

/-- `complex::conj()`. -/
def cconj [Neg F] (a : cplx F) : cplx F := ⟨a.re, -a.im⟩

/-- scalar times complex, `operator*(T, complex)` (equals `complex(x)*z`). -/
def cscale [Mul F] (x : F) (a : cplx F) : cplx F := ⟨x * a.re, x * a.im⟩

/-- `operator/(complex, complex)`:
`(1/z2.norm()) * complex(z1r·z2r + z1i·z2i, z1i·z2r − z1r·z2i)`. -/
def cdiv [Field F] (a b : cplx F) : cplx F :=
  cscale (1 / cnorm b) ⟨a.re * b.re + a.im * b.im, a.im * b.re - a.re * b.im⟩

/-- `complex::is_real()`: the imaginary part is zero. -/
def cIsReal [Zero F] [DecidableEq F] (a : cplx F) : Bool := decide (a.im = 0)

/-- `cmath::exp(complex)` over the reals:
`exp(re) * complex(cos(im), sin(im))`. -/
noncomputable def cexp (z : cplx ℝ) : cplx ℝ :=
  cscale (Real.exp z.re) ⟨Real.cos z.im, Real.sin z.im⟩

/-- `complex::abs()` over the reals: `sqrt(norm())`. -/
noncomputable def cabs (z : cplx ℝ) : ℝ := Real.sqrt (cnorm z)

end cplx

open cplx

/-! ## `cmath::vector` helpers (lists in the embedding) -/

/-- `vector::reduce(fn, initial)`: folds from the last element down to the
first (`reduce_impl` walks the index from `Size-1` to `0`). -/
def vreduce {α : Type} (fn : α → α → α) (ini : α) (a : List α) : α :=
  a.reverse.foldl fn ini

/-- `detail::argmin`: scans indices `0..size-1` keeping the first index
whose element the predicate ranks strictly below the current minimum. -/
def argminD {α : Type} (d : α) (pred : α → α → Bool) (a : List α) : ℕ :=
  (List.range a.length).foldl
    (fun mi i => if pred (a.getD i d) (a.getD mi d) then i else mi) 0

/-- `vector::swap_idx`. -/
def swapIdx (a b i : ℕ) : ℕ := if i = a then b else if i = b then a else i

/-- `vector::swap(a,b)`: exchange the entries at two indices. -/
def vswap {α : Type} (d : α) (x : List α) (a b : ℕ) : List α :=
  (List.range x.length).map (fun i => x.getD (swapIdx a b i) d)

/-- `vector::swappop(i)`: `swap(i,0)` followed by `erase<0>`. -/
def swappop {α : Type} (d : α) (x : List α) (i : ℕ) : List α :=
  (vswap d x i 0).drop 1

/-! ## `cmath::poly` (polynomial expansion, `poly.h` / `convolve.h`) -/

variable {F : Type}

/-- `detail::convolve_single(a, b, n)`: the `n`-th full-convolution
coefficient `Σ_m a[m]·b[n-m]` with out-of-range entries read as zero. -/
def convolve_single [CommRing F] (a b : List (cplx F)) (n : ℕ) : cplx F :=
  (List.range (n + 1)).foldr
    (fun m acc => cadd (cmul (a.getD m ⟨0, 0⟩) (b.getD (n - m) ⟨0, 0⟩)) acc)
    ⟨0, 0⟩

/-- `cmath::convolve_full`: all `S1+S2-1` convolution coefficients. -/
def convolve_full [CommRing F] (a b : List (cplx F)) : List (cplx F) :=
  (List.range (a.length + b.length - 1)).map (convolve_single a b)

/-- `cmath::poly(zeros)`: expand `Π (x - zero_k)` by repeated convolution
with the degree-1 factors `(1, -zero_k)`, starting from `[1]`
(`poly_rec` applies the factors in index order). -/
def polyC [CommRing F] (zeros : List (cplx F)) : List (cplx F) :=
  zeros.foldl (fun acc z => convolve_full acc [⟨1, 0⟩, cneg z]) [⟨1, 0⟩]

/-! ## ZPK values and frequency transforms -/

/-- `detail::zpk_value`: zeros, poles, gain. -/
structure zpk_value (F : Type) where
  z : List (cplx F)
  p : List (cplx F)
  k : F
deriving DecidableEq

/-- `zpk_value::even()`: append one zero-at-origin to the zeros and to the
poles whenever the respective count is odd (`Zn + Zn % 2`, `Pn + Pn % 2`). -/
def zpk_even [Zero F] (v : zpk_value F) : zpk_value F :=
  ⟨v.z ++ List.replicate (v.z.length % 2) ⟨0, 0⟩,
   v.p ++ List.replicate (v.p.length % 2) ⟨0, 0⟩, v.k⟩

/-- `detail::theta<F, N, IncludeZero>`: the list of purely imaginary angles
`i·π·(2(k + adj) + 1 - N)/(2N)` where `adj` skips the zero-frequency term
when `IncludeZero` is false and `N` is odd. -/
noncomputable def theta_list (N : ℕ) (includeZero : Bool) : List (cplx ℝ) :=
  let rz : Bool := !includeZero && decide (N % 2 ≠ 0)
  let M : ℕ := N - (if rz then 1 else 0)
  (List.range M).map (fun (i : ℕ) =>
    let idx : ℤ :=
      2 * ((i : ℤ) + (if rz && decide ((i : ℤ) ≥ (N : ℤ) / 2) then 1 else 0)) + 1 - (N : ℤ)
    ⟨0, Real.pi * (idx : ℝ) / (2 * (N : ℝ))⟩)

/-- `detail::butterworth_poles<F, Order>()`: `-exp(theta<F, Order>()())`. -/
noncomputable def butterworth_poles (N : ℕ) : List (cplx ℝ) :=
  (theta_list N true).map (fun v => cneg (cexp v))

/-- `detail::warp_frequency(freq, fs) = 2·fs·tan(π·freq/fs)`. -/
noncomputable def warp_frequency (freq fs : ℝ) : ℝ := 2 * fs * Real.tan (Real.pi * freq / fs)

/-- `detail::lowpass_zpk`: scale zeros and poles by `f`, multiply the gain
by `f^(Pn - Zn)`. -/
def lowpass_zpk [Field F] (v : zpk_value F) (f : F) : zpk_value F :=
  ⟨v.z.map (fun w => cmul ⟨f, 0⟩ w), v.p.map (fun w => cmul ⟨f, 0⟩ w),
   v.k * f ^ (v.p.length - v.z.length)⟩

/-- `detail::bilinear_zp`: `s ↦ (2·fs + s)/(2·fs - s)`. -/
def bilinear_zp [Field F] (fs : F) (v : cplx F) : cplx F :=
  cdiv (cadd ⟨2 * fs, 0⟩ v) (csub ⟨2 * fs, 0⟩ v)

/-- `detail::bilinear_gain` accumulation step: `a * (2·fs - v)`. -/
def bilinear_gain_step [Field F] (fs : F) (a v : cplx F) : cplx F :=
  cmul a (csub ⟨2 * fs, 0⟩ v)

/-- `detail::bilinear_zpk`: transform zeros and poles through
`bilinear_zp`, pad the zeros with `-1` up to the pole count, and multiply
the gain by `Re(Π(2fs - zero) / Π(2fs - pole))`. -/
def bilinear_zpk [Field F] (v : zpk_value F) (fs : F) : zpk_value F :=
  ⟨v.z.map (bilinear_zp fs) ++ List.replicate (v.p.length - v.z.length) ⟨-1, 0⟩,
   v.p.map (bilinear_zp fs),
   v.k * (cdiv (vreduce (bilinear_gain_step fs) ⟨1, 0⟩ v.z)
               (vreduce (bilinear_gain_step fs) ⟨1, 0⟩ v.p)).re⟩

/-- `iirfilter::warp(f) = warp_frequency(2·f/fs, 2)`. -/
noncomputable def iir_warp (fs f : ℝ) : ℝ := warp_frequency (2 * f / fs) 2

/-- `iirfilter::lowpass`: lowpass denormalization at the pre-warped cutoff
followed by the bilinear transform at `fs = 2`. -/
noncomputable def iir_lowpass (fs : ℝ) (proto : zpk_value ℝ) (f : ℝ) : zpk_value ℝ :=
  bilinear_zpk (lowpass_zpk proto (iir_warp fs f)) 2

/-- Modelled from the spec: the `butterworth<N>` prototype class itself
(file `butterworth.h`) is absent from the sources (only its tests and the
`detail::butterworth_poles` helper are present).  Per the spec it has
"zero zeros; gain = 1" and its poles are the Butterworth poles. -/
noncomputable def butterworth_zpk (n : ℕ) : zpk_value ℝ := ⟨[], butterworth_poles n, 1⟩

/-! ## Chebyshev prototypes (`chebyshev.h`) -/

/-- `chebyshev1::specification`: `rf = sqrt(10^(0.1·ripple) - 1)`. -/
noncomputable def cheb1_rf (ripple : ℝ) : ℝ :=
  Real.sqrt ((10 : ℝ) ^ ((1 / 10 : ℝ) * ripple) - 1)

/-- `chebyshev1::specification::mu() = asinh(1/rf)/Order`. -/
noncomputable def cheb1_mu (n : ℕ) (ripple : ℝ) : ℝ :=
  1 / (n : ℝ) * Real.arsinh (1 / cheb1_rf ripple)

/-- `detail::minus_sinh`: `-(exp(v) - exp(-v))/2` on complex values. -/
noncomputable def minus_sinh (v : cplx ℝ) : cplx ℝ :=
  cdiv (cneg (csub (cexp v) (cexp (cneg v)))) ⟨2, 0⟩

/-- `chebyshev1::specification::poles()`:
`(mu + theta).transform(minus_sinh)`. -/
noncomputable def cheb1_poles (n : ℕ) (ripple : ℝ) : List (cplx ℝ) :=
  ((theta_list n true).map (fun v => cadd ⟨cheb1_mu n ripple, 0⟩ v)).map minus_sinh

/-- `chebyshev2::specification`: `rf = 1/sqrt(10^(0.1·ripple) - 1)`. -/
noncomputable def cheb2_rf (ripple : ℝ) : ℝ :=
  1 / Real.sqrt ((10 : ℝ) ^ ((1 / 10 : ℝ) * ripple) - 1)

/-! ## Polynomial (direct-form) design and runtime (`poly.h`) -/

/-- `poly_design`: numerator `b = real(gain · poly(zeros))`. -/
def poly_b [CommRing F] (v : zpk_value F) : List F :=
  ((polyC v.z).map (fun w => cmul ⟨v.k, 0⟩ w)).map cplx.re

/-- `poly_design`: denominator `a = real(poly(poles))`. -/
def poly_a [CommRing F] (v : zpk_value F) : List F :=
  (polyC v.p).map cplx.re

/-- `detail::poly_df2t_update`: starting at slot `i` and writing `c` slots,
set `state[i] = b[i+1]·x - a[i+1]·y + state[i+1]` with `i` increasing
(each write reads the not-yet-rewritten next slot). -/
def df2t_go [CommRing F] (b a : List F) (x y : F) : ℕ → ℕ → List F → List F
  | _, 0, s => s
  | i, c + 1, s =>
      df2t_go b a x y (i + 1) c
        (s.set i (b.getD (i + 1) 0 * x - a.getD (i + 1) 0 * y + s.getD (i + 1) 0))

/-- `poly_design::filter`: one sample through the transposed direct-form-II
recurrence; returns the output and the new state (the C++ mutates the state
array in place). -/
def poly_filter [CommRing F] (b a : List F) (s : List F) (x : F) : F × List F :=
  let n := s.length
  let y := b.getD 0 0 * x + s.getD 0 0
  let s1 := df2t_go b a x y 0 (n - 1) s
  (y, s1.set (n - 1) (b.getD n 0 * x - a.getD n 0 * y))

/-! ## Second-order sections (`sos.h`) -/

/-- The arguments handed by `zpk_to_sos::finish` to the `sos_section`
constructor: two zeros, two poles and a partial gain.  The stored biquad
coefficients are derived from them by `sos_sec_b` / `sos_sec_a` exactly as
the `sos_section` constructor does. -/
structure sos_args (F : Type) where
  z1 : cplx F
  z2 : cplx F
  p1 : cplx F
  p2 : cplx F
  g : F
deriving DecidableEq

/-- `sos_section` numerator coefficients: `real(gain * poly(zeros))`. -/
def sos_sec_b [CommRing F] (s : sos_args F) : List F :=
  ((polyC [s.z1, s.z2]).map (fun w => cmul ⟨s.g, 0⟩ w)).map cplx.re

/-- `sos_section` denominator coefficients: `real(poly(poles))`. -/
def sos_sec_a [CommRing F] (s : sos_args F) : List F :=
  (polyC [s.p1, s.p2]).map cplx.re

/-- `sos_state`: the two delay slots of one biquad section. -/
structure sos_state (F : Type) where
  y1 : F
  y2 : F
deriving DecidableEq

/-- `sos_section::filter`: `y = b0·x + y1; y1 = b1·x - a1·y + y2;
y2 = b2·x - a2·y`. -/
def sos_step [CommRing F] (sec : sos_args F) (st : sos_state F) (x : F) :
    F × sos_state F :=
  let b := sos_sec_b sec
  let a := sos_sec_a sec
  let y := b.getD 0 0 * x + st.y1
  (y, ⟨b.getD 1 0 * x - a.getD 1 0 * y + st.y2, b.getD 2 0 * x - a.getD 2 0 * y⟩)

/-- `detail::filter_chain`: feed the sample through the sections in order,
each with its own state. -/
def chain_step [CommRing F] :
    List (sos_args F) → List (sos_state F) → F → F × List (sos_state F)
  | [], _, x => (x, [])
  | _ :: _, [], x => (x, [])
  | sec :: rest, st :: sts, x =>
      let r1 := sos_step sec st x
      let r2 := chain_step rest sts r1.1
      (r2.1, r1.2 :: r2.2)

/-- Drive a stateful per-sample filter over a finite input list, collecting
the outputs (what a filter instance does sample by sample). -/
def runFilter {σ α : Type} (step : σ → α → α × σ) : σ → List α → List α
  | _, [] => []
  | s, x :: xs => (step s x).1 :: runFilter step (step s x).2 xs

/-- A fresh `poly_instance` (zeroed state of size `order`) driven over an
input list. -/
def poly_outputs [CommRing F] (b a : List F) (order : ℕ) (xs : List F) :
    List F :=
  runFilter (fun s x => poly_filter b a s x) (List.replicate order 0) xs

/-- A fresh `sos_instance` (one zeroed `sos_state` per section) driven over
an input list. -/
def sos_outputs [CommRing F] (secs : List (sos_args F)) (xs : List F) :
    List F :=
  runFilter (fun sts x => chain_step secs sts x)
    (List.replicate secs.length ⟨0, 0⟩) xs

/-! ## ZPK→SOS pairing (`zpk_to_sos` in `detail/filter.h`) -/

section Pairing

variable [LinearOrderedField F] [DecidableEq F]

/-- `detail::unit_distance`: `|1 - z.norm()|`. -/
def unit_distance (z : cplx F) : F := |1 - cnorm z|

/-- `detail::unit_circle_distance_less`. -/
def ucl_less (a b : cplx F) : Bool :=
  decide (unit_distance a < unit_distance b)

/-- `detail::unit_circle_distance_real_less`, embedded literally:
`a.is_real() < b.is_real() || (a.is_real() == a.is_real() && ud(a) < ud(b))`
(on C++ `bool`, `x < y` means `!x && y`; note the second conjunct compares
`a.is_real()` with itself, exactly as the source does). -/
def ucl_real_less (a b : cplx F) : Bool :=
  (!cIsReal a && cIsReal b) ||
    ((cIsReal a == cIsReal a) && decide (unit_distance a < unit_distance b))

/-- `detail::distance_less(z)`: order by squared distance to `z`. -/
def dist_less (zr a b : cplx F) : Bool :=
  decide (cnorm (csub a zr) < cnorm (csub b zr))

/-- `detail::distance_real_less(z)`:
`a.is_real() > b.is_real() || (a.is_real() == b.is_real() && ...)`. -/
def dist_real_less (zr a b : cplx F) : Bool :=
  (cIsReal a && !cIsReal b) ||
    ((cIsReal a == cIsReal b) && decide (cnorm (csub a zr) < cnorm (csub b zr)))

/-- `detail::distance_complex_less(z)`:
`a.is_real() < b.is_real() || (a.is_real() == b.is_real() && ...)`. -/
def dist_complex_less (zr a b : cplx F) : Bool :=
  (!cIsReal a && cIsReal b) ||
    ((cIsReal a == cIsReal b) && decide (cnorm (csub a zr) < cnorm (csub b zr)))

/-- `zpk_to_sos::next_pole_index`. -/
def next_pole_index (p : List (cplx F)) : ℕ := argminD ⟨0, 0⟩ ucl_less p

/-- `zpk_to_sos::next_real_pole_index`. -/
def next_real_pole_index (p : List (cplx F)) : ℕ := argminD ⟨0, 0⟩ ucl_real_less p

/-- `zpk_to_sos::nearest_index`. -/
def nearest_index (a : List (cplx F)) (zr : cplx F) : ℕ :=
  argminD ⟨0, 0⟩ (dist_less zr) a

/-- `zpk_to_sos::nearest_real_index`. -/
def nearest_real_index (a : List (cplx F)) (zr : cplx F) : ℕ :=
  argminD ⟨0, 0⟩ (dist_real_less zr) a

/-- `zpk_to_sos::nearest_complex_index`. -/
def nearest_complex_index (a : List (cplx F)) (zr : cplx F) : ℕ :=
  argminD ⟨0, 0⟩ (dist_complex_less zr) a

/-- `zpk_to_sos::conjugate_index`: nearest to the conjugate. -/
def conjugate_index (a : List (cplx F)) (zr : cplx F) : ℕ :=
  nearest_index a (cconj zr)

/-- `detail::zpk_to_sos<FO, F, Stages>::operator()` together with its
`step0` … `step6b` helpers: recursively select one pole pair and one zero
pair per stage, remove them, and append the section built from them after
the recursively built remainder.  The gain argument of the section is the
running gain when this is the innermost stage (`Stages == 1`) or when the
gain is distributed, else `1`. -/
def zpk_to_sos : ℕ → List (cplx F) → List (cplx F) → F → Bool → List (sos_args F)
  | 0, _, _, _, _ => []
  | s + 1, z, p, g, dist =>
    let p1i := next_pole_index p
    let p1 := p.getD p1i ⟨0, 0⟩
    let pr := swappop ⟨0, 0⟩ p p1i
    let gsec : F := if s = 0 ∨ dist = true then g else 1
    if !cIsReal p1 && (z.countP (fun w => cIsReal w) == 1) &&
        (pr.countP (fun w => cIsReal w) == 1) then
      let z1i := nearest_complex_index z p1
      let z1 := z.getD z1i ⟨0, 0⟩
      let zr := swappop ⟨0, 0⟩ z z1i
      let z2i := conjugate_index zr z1
      let p2i := conjugate_index pr p1
      zpk_to_sos s (swappop ⟨0, 0⟩ zr z2i) (swappop ⟨0, 0⟩ pr p2i) g dist ++
        [⟨z1, zr.getD z2i ⟨0, 0⟩, p1, pr.getD p2i ⟨0, 0⟩, gsec⟩]
    else
      let p2i := if cIsReal p1 then next_real_pole_index pr else conjugate_index pr p1
      let p2 := pr.getD p2i ⟨0, 0⟩
      let pr2 := swappop ⟨0, 0⟩ pr p2i
      let z1i := nearest_index z p1
      let z1 := z.getD z1i ⟨0, 0⟩
      let zr := swappop ⟨0, 0⟩ z z1i
      let z2i := if cIsReal z1 then nearest_real_index zr p1 else conjugate_index zr z1
      zpk_to_sos s (swappop ⟨0, 0⟩ zr z2i) pr2 g dist ++
        [⟨z1, zr.getD z2i ⟨0, 0⟩, p1, p2, gsec⟩]

end Pairing

/-- `sos_gain`: how `sos_design` spreads the overall gain. -/
inductive sos_gain where
  | first_section : sos_gain
  | distribute : sos_gain
deriving DecidableEq

/-- `sos_design::sos_count = (N + 1)/2`. -/
def sos_count (N : ℕ) : ℕ := (N + 1) / 2

/-- The gain handed to `zpk_to_sos` by `sos_design::build_sos`:
`pow(gain, 1/sos_count)` in `distribute` mode, else the gain itself
(`cmath::pow` on reals is modelled by the real power function). -/
noncomputable def build_sos_gain (g : ℝ) (m : ℕ) (mode : sos_gain) : ℝ :=
  if mode = sos_gain.distribute then g ^ ((1 : ℝ) / (m : ℝ)) else g

/-- `sos_design::build_sos` on an already-evened ZPK of `2·sos_count`
zeros and poles. -/
noncomputable def build_sos (N : ℕ) (v : zpk_value ℝ) (mode : sos_gain) :
    List (sos_args ℝ) :=
  zpk_to_sos (sos_count N) v.z v.p (build_sos_gain v.k (sos_count N) mode)
    (mode = sos_gain.distribute)

/-- `sos_design::sos_design(zpk, mode)`: build the sections from the
evened ZPK. -/
noncomputable def sos_design_args (N : ℕ) (v : zpk_value ℝ) (mode : sos_gain) :
    List (sos_args ℝ) :=
  build_sos N (zpk_even v) mode

/-- `sos_design` in the default `first_section` mode, over an arbitrary
linear ordered field: in this mode `build_sos` passes the ZPK gain through
unchanged (no `pow` is involved), so the construction stays polymorphic
and can be evaluated on concrete rational inputs. -/
def sos_design_first [LinearOrderedField F] [DecidableEq F] (N : ℕ)
    (v : zpk_value F) : List (sos_args F) :=
  zpk_to_sos (sos_count N) (zpk_even v).z (zpk_even v).p (zpk_even v).k false

/-! ## Helper lemmas -/

theorem sos_design_first_eq_args (N : ℕ) (v : zpk_value ℝ) :
    sos_design_first N v = sos_design_args N v sos_gain.first_section := by
  with_unfolding_all rfl

theorem getD_set {α : Type} (l : List α) (i j : ℕ) (v d : α) :
    (l.set i v).getD j d = if i = j ∧ j < l.length then v else l.getD j d := by
  simp only [List.getD_eq_getElem?_getD, List.getElem?_set]
  by_cases hij : i = j
  · subst hij
    by_cases hl : i < l.length
    · simp [hl]
    · simp [hl, List.getElem?_eq_none (le_of_not_lt hl)]
  · simp [hij]

theorem argminD_foldl_lt (p : ℕ → ℕ → Bool) (n : ℕ) :
    ∀ (l : List ℕ) (mi : ℕ), (∀ i ∈ l, i < n) → mi < n →
      l.foldl (fun m i => if p i m then i else m) mi < n := by
  intro l
  induction l with
  | nil => intro mi _ hmi; exact hmi
  | cons x xs ih =>
    intro mi hl hmi
    simp only [List.foldl_cons]
    split
    · exact ih x (fun i hi => hl i (List.mem_cons_of_mem x hi))
        (hl x (List.mem_cons_self x xs))
    · exact ih mi (fun i hi => hl i (List.mem_cons_of_mem x hi)) hmi

theorem argminD_lt_length {α : Type} (d : α) (pred : α → α → Bool) (a : List α)
    (ha : 0 < a.length) : argminD d pred a < a.length := by
  unfold argminD
  exact argminD_foldl_lt (fun i m => pred (a.getD i d) (a.getD m d)) a.length
    (List.range a.length) 0 (fun i hi => List.mem_range.mp hi) ha

theorem length_vswap {α : Type} (d : α) (x : List α) (a b : ℕ) :
    (vswap d x a b).length = x.length := by
  unfold vswap
  rw [List.length_map, List.length_range]

theorem length_swappop {α : Type} (d : α) (x : List α) (i : ℕ) :
    (swappop d x i).length = x.length - 1 := by
  unfold swappop
  rw [List.length_drop, length_vswap]

theorem vswap_getElem? {α : Type} (d : α) (x : List α) (a b j : ℕ) :
    (vswap d x a b)[j]? =
      if j < x.length then some (x.getD (swapIdx a b j) d) else none := by
  unfold vswap
  rw [List.getElem?_map]
  by_cases hj : j < x.length
  · rw [List.getElem?_range hj, if_pos hj]; rfl
  · rw [if_neg hj, List.getElem?_eq_none (by rw [List.length_range]; omega)]; rfl

theorem vswap_zero_eq {α : Type} (d : α) (x : List α) : vswap d x 0 0 = x := by
  apply List.ext_getElem?
  intro j
  rw [vswap_getElem?]
  by_cases hj : j < x.length
  · rw [if_pos hj]
    have : swapIdx 0 0 j = j := by
      unfold swapIdx
      by_cases hj0 : j = 0
      · rw [if_pos hj0, hj0]
      · rw [if_neg hj0, if_neg hj0]
    rw [this, List.getD_eq_getElem?_getD, List.getElem?_eq_getElem hj]
    rfl
  · rw [if_neg hj, List.getElem?_eq_none (by omega)]

theorem vswap_decomp {α : Type} (d : α) (x : List α) (i : ℕ) (hi : i < x.length)
    (h1 : 1 ≤ i) :
    vswap d x i 0 =
      x.getD i d :: ((x.drop 1).take (i - 1) ++ x.getD 0 d :: x.drop (i + 1)) := by
  apply List.ext_getElem?
  intro j
  rw [vswap_getElem?]
  have hlen : ((x.drop 1).take (i - 1)).length = i - 1 := by
    rw [List.length_take, List.length_drop]; omega
  rcases Nat.eq_zero_or_pos j with hj0 | hjpos
  · subst hj0
    rw [if_pos (by omega), List.getElem?_cons_zero]
    have : swapIdx i 0 0 = i := by
      unfold swapIdx
      rw [if_neg (by omega), if_pos rfl]
    rw [this]
  · obtain ⟨j', rfl⟩ : ∃ j', j = j' + 1 := ⟨j - 1, by omega⟩
    rw [List.getElem?_cons_succ]
    by_cases hj : j' + 1 < x.length
    · rw [if_pos hj]
      by_cases hja : j' < i - 1
      · rw [List.getElem?_append_left (by omega), List.getElem?_take_of_lt (by omega),
          List.getElem?_drop]
        have hsw : swapIdx i 0 (j' + 1) = j' + 1 := by
          unfold swapIdx
          rw [if_neg (by omega), if_neg (by omega)]
        have hc : 1 + j' = j' + 1 := by omega
        rw [hsw, hc, List.getElem?_eq_getElem hj, List.getD_eq_getElem?_getD,
          List.getElem?_eq_getElem hj]
        rfl
      · rw [List.getElem?_append_right (by omega), hlen]
        by_cases hjb : j' + 1 = i
        · have : j' - (i - 1) = 0 := by omega
          rw [this, List.getElem?_cons_zero]
          have : swapIdx i 0 (j' + 1) = 0 := by
            unfold swapIdx
            rw [if_pos hjb]
          rw [this]
        · obtain ⟨m, hm⟩ : ∃ m, j' - (i - 1) = m + 1 := ⟨j' - (i - 1) - 1, by omega⟩
          rw [hm, List.getElem?_cons_succ, List.getElem?_drop]
          have : swapIdx i 0 (j' + 1) = j' + 1 := by
            unfold swapIdx
            rw [if_neg (by omega), if_neg (by omega)]
          rw [this, List.getD_eq_getElem?_getD]
          have hidx : i + 1 + m = j' + 1 := by omega
          rw [hidx, List.getElem?_eq_getElem hj]
          rfl
    · rw [if_neg hj, List.getElem?_eq_none]
      rw [List.length_append, hlen, List.length_cons, List.length_drop]
      omega

theorem swappop_cons_multiset {α : Type} (d : α) (x : List α) (i : ℕ)
    (hi : i < x.length) :
    x.getD i d ::ₘ (↑(swappop d x i) : Multiset α) = ↑x := by
  have hx0 : x = x.getD 0 d :: x.drop 1 := by
    rcases x with _ | ⟨y, ys⟩
    · simp at hi
    · rfl
  rcases Nat.eq_zero_or_pos i with hi0 | hipos
  · subst hi0
    unfold swappop
    rw [vswap_zero_eq]
    conv_rhs => rw [hx0]
    rw [← Multiset.cons_coe]
  · unfold swappop
    rw [vswap_decomp d x i hi hipos, List.drop_succ_cons, List.drop_zero]
    have hdrop : x.drop 1 =
        (x.drop 1).take (i - 1) ++ x.getD i d :: x.drop (i + 1) := by
      conv_lhs => rw [← List.take_append_drop (i - 1) (x.drop 1)]
      congr 1
      rw [List.drop_drop]
      have h1i : 1 + (i - 1) = i := by omega
      rw [h1i]
      rw [List.drop_eq_getElem_cons hi]
      congr 1
      rw [List.getD_eq_getElem?_getD, List.getElem?_eq_getElem hi]
      rfl
    conv_rhs => rw [hx0, hdrop]
    simp only [← Multiset.coe_add, ← Multiset.cons_coe, ← Multiset.singleton_add]
    abel

theorem df2t_go_length [CommRing F] (b a : List F) (x y : F) (c : ℕ) :
    ∀ (i : ℕ) (s : List F), (df2t_go b a x y i c s).length = s.length := by
  induction c with
  | zero => intro i s; rfl
  | succ c ih => intro i s; rw [df2t_go, ih]; simp

theorem df2t_go_getD [CommRing F] (b a : List F) (x y : F) (c : ℕ) :
    ∀ (i : ℕ) (s : List F) (j : ℕ), i + c ≤ s.length →
      (df2t_go b a x y i c s).getD j 0 =
        if i ≤ j ∧ j < i + c then
          b.getD (j + 1) 0 * x - a.getD (j + 1) 0 * y + s.getD (j + 1) 0
        else s.getD j 0 := by
  induction c with
  | zero =>
    intro i s j _
    rw [df2t_go]
    have : ¬(i ≤ j ∧ j < i + 0) := by omega
    rw [if_neg this]
  | succ c ih =>
    intro i s j h
    rw [df2t_go, ih (i + 1) _ j (by rw [List.length_set]; omega), getD_set, getD_set]
    by_cases h1 : i + 1 ≤ j ∧ j < i + 1 + c
    · rw [if_pos h1, if_neg (by omega : ¬(i = j + 1 ∧ j + 1 < s.length)),
        if_pos (by omega : i ≤ j ∧ j < i + (c + 1))]
    · rw [if_neg h1]
      by_cases h2 : i = j
      · rw [if_pos ⟨h2, by omega⟩, if_pos (by omega : i ≤ j ∧ j < i + (c + 1)), h2]
      · rw [if_neg (fun hc => h2 hc.1), if_neg (by omega : ¬(i ≤ j ∧ j < i + (c + 1)))]

/-- Claim C9: for an order-`n` polynomial design (`b`, `a` of length `n+1`)
with state `s` of length `n`, the per-sample filter call returns
`y = b[0]·x + s[0]` and the new state satisfies
`s'[k] = b[k+1]·x - a[k+1]·y + s[k+1]` for `k = 0..n-2` (reading the
pre-call state) and `s'[n-1] = b[n]·x - a[n]·y`. -/
theorem C9_poly_filter_recurrence {F : Type} [CommRing F] (n : ℕ)
    (b a s : List F) (x : F) (hn : 1 ≤ n) (hs : s.length = n) :
    (poly_filter b a s x).1 = b.getD 0 0 * x + s.getD 0 0 ∧
    (poly_filter b a s x).2.length = n ∧
    (∀ k, k < n - 1 →
      (poly_filter b a s x).2.getD k 0 =
        b.getD (k + 1) 0 * x - a.getD (k + 1) 0 * (b.getD 0 0 * x + s.getD 0 0) +
          s.getD (k + 1) 0) ∧
    (poly_filter b a s x).2.getD (n - 1) 0 =
      b.getD n 0 * x - a.getD n 0 * (b.getD 0 0 * x + s.getD 0 0) := by
  unfold poly_filter
  refine ⟨rfl, ?_, ?_, ?_⟩
  · simp [df2t_go_length, hs]
  · intro k hk
    rw [getD_set, if_neg (by omega : ¬(s.length - 1 = k ∧ k < (df2t_go b a x
      (b.getD 0 0 * x + s.getD 0 0) 0 (s.length - 1) s).length)),
      df2t_go_getD b a x _ _ 0 s k (by omega),
      if_pos (by omega : 0 ≤ k ∧ k < 0 + (s.length - 1))]
  · rw [getD_set, if_pos ⟨by omega, by rw [df2t_go_length]; omega⟩, hs]

/-- Witness for C9 at a concrete order-2 design over `ℚ`. -/
theorem C9_witness :
    1 ≤ 2 ∧ ([(10 : ℚ), 20].length = 2 ∧
      ((poly_filter [(1 : ℚ), 2, 3] [1, 4, 5] [10, 20] 2).1 =
          [(1 : ℚ), 2, 3].getD 0 0 * 2 + [(10 : ℚ), 20].getD 0 0 ∧
        (poly_filter [(1 : ℚ), 2, 3] [1, 4, 5] [10, 20] 2).2.length = 2 ∧
        (∀ k, k < 2 - 1 →
          (poly_filter [(1 : ℚ), 2, 3] [1, 4, 5] [10, 20] 2).2.getD k 0 =
            [(1 : ℚ), 2, 3].getD (k + 1) 0 * 2 -
              [(1 : ℚ), 4, 5].getD (k + 1) 0 *
                ([(1 : ℚ), 2, 3].getD 0 0 * 2 + [(10 : ℚ), 20].getD 0 0) +
              [(10 : ℚ), 20].getD (k + 1) 0) ∧
        (poly_filter [(1 : ℚ), 2, 3] [1, 4, 5] [10, 20] 2).2.getD (2 - 1) 0 =
          [(1 : ℚ), 2, 3].getD 2 0 * 2 -
            [(1 : ℚ), 4, 5].getD 2 0 *
              ([(1 : ℚ), 2, 3].getD 0 0 * 2 + [(10 : ℚ), 20].getD 0 0))) :=
  ⟨by norm_num, by norm_num,
    C9_poly_filter_recurrence 2 [1, 2, 3] [1, 4, 5] [10, 20] 2 (by norm_num)
      (by norm_num)⟩

theorem mem_map_sum {α β : Type} (f : β → Multiset α) (l : List β) (x : α) :
    x ∈ (l.map f).sum ↔ ∃ b ∈ l, x ∈ f b := by
  induction l with
  | nil => simp
  | cons y ys ih => simp [ih]

theorem zpk_to_sos_poles_multiset [LinearOrderedField F] [DecidableEq F] (s : ℕ) :
    ∀ (z p : List (cplx F)) (g : F) (dist : Bool),
      p.length = 2 * s → z.length = 2 * s →
      ((zpk_to_sos s z p g dist).map
        (fun sec => (sec.p1 ::ₘ {sec.p2} : Multiset (cplx F)))).sum = ↑p := by
  induction s with
  | zero =>
    intro z p g dist hp _
    have hpe : p = [] := List.length_eq_zero.mp (by omega)
    subst hpe
    rw [zpk_to_sos]
    rfl
  | succ s ih =>
    intro z p g dist hp hz
    have hp1i : next_pole_index p < p.length :=
      argminD_lt_length _ _ _ (by omega)
    have hprlen : (swappop (⟨0, 0⟩ : cplx F) p (next_pole_index p)).length = 2 * s + 1 := by
      rw [length_swappop]; omega
    have hzrlen : ∀ j, (swappop (⟨0, 0⟩ : cplx F) z j).length = 2 * s + 1 := by
      intro j; rw [length_swappop]; omega
    rw [zpk_to_sos]
    split
    · -- special one-real-zero/one-real-pole branch
      have hz1i : nearest_complex_index z (p.getD (next_pole_index p) ⟨0, 0⟩) < z.length :=
        argminD_lt_length _ _ _ (by omega)
      have hp2i :
          conjugate_index (swappop ⟨0, 0⟩ p (next_pole_index p))
              (p.getD (next_pole_index p) ⟨0, 0⟩) <
            (swappop (⟨0, 0⟩ : cplx F) p (next_pole_index p)).length :=
        argminD_lt_length _ _ _ (by rw [hprlen]; omega)
      rw [List.map_append, List.sum_append,
        ih _ _ g dist (by rw [length_swappop, hprlen]; omega)
          (by rw [length_swappop, hzrlen]; omega)]
      rw [List.map_cons, List.map_nil, List.sum_cons, List.sum_nil, add_zero]
      rw [← swappop_cons_multiset ⟨0, 0⟩ p (next_pole_index p) hp1i,
        ← swappop_cons_multiset ⟨0, 0⟩ _ _ hp2i]
      simp only [← Multiset.singleton_add]
      abel
    · -- ordinary branch: partner pole by index, then two zeros
      have hp2i :
          (if cIsReal (p.getD (next_pole_index p) ⟨0, 0⟩) then
              next_real_pole_index (swappop ⟨0, 0⟩ p (next_pole_index p))
            else
              conjugate_index (swappop ⟨0, 0⟩ p (next_pole_index p))
                (p.getD (next_pole_index p) ⟨0, 0⟩)) <
            (swappop (⟨0, 0⟩ : cplx F) p (next_pole_index p)).length := by
        split
        · exact argminD_lt_length _ _ _ (by rw [hprlen]; omega)
        · exact argminD_lt_length _ _ _ (by rw [hprlen]; omega)
      rw [List.map_append, List.sum_append,
        ih _ _ g dist (by rw [length_swappop, hprlen]; omega)
          (by rw [length_swappop, hzrlen]; omega)]
      rw [List.map_cons, List.map_nil, List.sum_cons, List.sum_nil, add_zero]
      rw [← swappop_cons_multiset ⟨0, 0⟩ p (next_pole_index p) hp1i,
        ← swappop_cons_multiset ⟨0, 0⟩ _ _ hp2i]
      simp only [← Multiset.singleton_add]
      abel

/-- Claim C10: `even()` on a ZPK with an odd number of poles appends the
complex number `0` to the pole list (and to the zero list), keeps the
first entries and the gain unchanged, and consequently an odd-order SOS
design contains a section built with a pole at the origin. -/
theorem C10_even_pads_poles (v : zpk_value ℝ) (mode : sos_gain)
    (hodd : v.p.length % 2 = 1) (hz : v.z.length = v.p.length) :
    (zpk_even v).p = v.p ++ [⟨0, 0⟩] ∧
    (zpk_even v).z = v.z ++ [⟨0, 0⟩] ∧
    (zpk_even v).k = v.k ∧
    ∃ sec ∈ sos_design_args v.p.length v mode,
      sec.p1 = ⟨0, 0⟩ ∨ sec.p2 = ⟨0, 0⟩ := by
  have hzp : v.z.length % 2 = 1 := by omega
  refine ⟨by rw [zpk_even, hodd]; rfl, by rw [zpk_even, hzp]; rfl, rfl, ?_⟩
  have hplen : (zpk_even v).p.length = 2 * sos_count v.p.length := by
    rw [zpk_even, List.length_append, List.length_replicate, hodd]
    unfold sos_count
    omega
  have hzlen : (zpk_even v).z.length = 2 * sos_count v.p.length := by
    rw [zpk_even, List.length_append, List.length_replicate, hzp]
    unfold sos_count
    omega
  have hmul := zpk_to_sos_poles_multiset (sos_count v.p.length) (zpk_even v).z
    (zpk_even v).p (build_sos_gain (zpk_even v).k (sos_count v.p.length) mode)
    (decide (mode = sos_gain.distribute)) hplen hzlen
  have hmem : (⟨0, 0⟩ : cplx ℝ) ∈
      ((sos_design_args v.p.length v mode).map
        (fun sec => (sec.p1 ::ₘ {sec.p2} : Multiset (cplx ℝ)))).sum := by
    unfold sos_design_args build_sos
    rw [hmul, Multiset.mem_coe, zpk_even]
    rw [hodd]
    exact List.mem_append_right _ (List.mem_singleton.mpr rfl)
  rw [mem_map_sum] at hmem
  obtain ⟨sec, hsec, hin⟩ := hmem
  refine ⟨sec, hsec, ?_⟩
  rcases Multiset.mem_cons.mp hin with h | h
  · exact Or.inl h.symm
  · exact Or.inr (Multiset.mem_singleton.mp h).symm

/-- Witness for C10 at a concrete odd-order (order-1) ZPK. -/
theorem C10_witness :
    ([(⟨-(1/2), 0⟩ : cplx ℝ)].length % 2 = 1 ∧
      [(⟨-1, 0⟩ : cplx ℝ)].length = [(⟨-(1/2), 0⟩ : cplx ℝ)].length) ∧
    ((zpk_even (⟨[⟨-1, 0⟩], [⟨-(1/2), 0⟩], 1⟩ : zpk_value ℝ)).p =
        [⟨-(1/2), 0⟩] ++ [⟨0, 0⟩] ∧
      (zpk_even (⟨[⟨-1, 0⟩], [⟨-(1/2), 0⟩], 1⟩ : zpk_value ℝ)).z =
        [⟨-1, 0⟩] ++ [⟨0, 0⟩] ∧
      (zpk_even (⟨[⟨-1, 0⟩], [⟨-(1/2), 0⟩], 1⟩ : zpk_value ℝ)).k = 1 ∧
      ∃ sec ∈ sos_design_args [(⟨-(1/2), 0⟩ : cplx ℝ)].length
          (⟨[⟨-1, 0⟩], [⟨-(1/2), 0⟩], 1⟩ : zpk_value ℝ) sos_gain.first_section,
        sec.p1 = ⟨0, 0⟩ ∨ sec.p2 = ⟨0, 0⟩) :=
  ⟨⟨by norm_num, by norm_num⟩,
    C10_even_pads_poles ⟨[⟨-1, 0⟩], [⟨-(1/2), 0⟩], 1⟩ sos_gain.first_section
      (by norm_num) (by norm_num)⟩

theorem zpk_to_sos_gains [LinearOrderedField F] [DecidableEq F] (s : ℕ) :
    ∀ (z p : List (cplx F)) (g : F) (dist : Bool), 1 ≤ s →
      (zpk_to_sos s z p g dist).map (fun sec => sec.g) =
        g :: List.replicate (s - 1) (if dist then g else 1) := by
  induction s with
  | zero => intro z p g dist h; omega
  | succ s ih =>
    intro z p g dist _
    rw [zpk_to_sos]
    rcases Nat.eq_zero_or_pos s with hs0 | hs1
    · subst hs0
      split
      · simp only [zpk_to_sos, List.nil_append, List.map_cons, List.map_nil]
        rfl
      · simp only [zpk_to_sos, List.nil_append, List.map_cons, List.map_nil]
        rfl
    · have hrep : List.replicate (s + 1 - 1) (if dist then g else 1) =
          List.replicate (s - 1) (if dist then g else 1) ++
            [if dist then g else 1] := by
        rw [← List.replicate_succ']
        congr 1
        omega
      have hgsec : (if s = 0 ∨ dist = true then g else 1) =
          if dist then g else 1 := by
        cases dist
        · have hc : ¬(s = 0 ∨ (false : Bool) = true) := by
            simp only [Bool.false_eq_true, or_false]
            omega
          rw [if_neg hc, if_neg (by simp)]
        · rw [if_pos (Or.inr rfl), if_pos rfl]
      split
      · rw [List.map_append, ih _ _ g dist hs1, List.map_cons, List.map_nil]
        rw [hrep, hgsec]
        rfl
      · rw [List.map_append, ih _ _ g dist hs1, List.map_cons, List.map_nil]
        rw [hrep, hgsec]
        rfl

/-- Claim C8: counterexample at negative overall gain.  For the even
order-4 ZPK with gain `-1`, `distribute` mode hands each of the two
sections `pow(-1, 1/2)` (which is `0` in the real-power model, NaN in
C++), so the product of the partial gains is `0` and not the gain `-1`
that `first_section` mode assigns to the first section. -/
theorem C8_distribute_negative_gain_counterexample :
    ((sos_design_args 4
          (⟨[⟨0, 0⟩, ⟨0, 0⟩, ⟨0, 0⟩, ⟨0, 0⟩], [⟨0, 0⟩, ⟨0, 0⟩, ⟨0, 0⟩, ⟨0, 0⟩],
            -1⟩ : zpk_value ℝ)
          sos_gain.distribute).map (fun sec => sec.g)).prod = 0 ∧
    (0 : ℝ) ≠ -1 := by
  constructor
  · unfold sos_design_args build_sos
    have hsc : sos_count 4 = 2 := by rfl
    rw [hsc, zpk_to_sos_gains 2 _ _ _ _ (by omega)]
    have hg : build_sos_gain
        (zpk_even (⟨[⟨0, 0⟩, ⟨0, 0⟩, ⟨0, 0⟩, ⟨0, 0⟩],
          [⟨0, 0⟩, ⟨0, 0⟩, ⟨0, 0⟩, ⟨0, 0⟩], -1⟩ : zpk_value ℝ)).k 2
          sos_gain.distribute = 0 := by
      unfold build_sos_gain
      rw [if_pos rfl]
      show ((-1 : ℝ) ^ ((1 : ℝ) / (2 : ℕ)) : ℝ) = 0
      rw [Real.rpow_def_of_neg (by norm_num)]
      have hc : ((1 : ℝ) / (2 : ℕ)) * Real.pi = Real.pi / 2 := by
        push_cast
        ring
      rw [hc, Real.cos_pi_div_two, mul_zero]
    rw [hg]
    norm_num
  · norm_num

/-- Claim C8 (amended with `0 ≤ gain`): for an even-order `2m` ZPK with
nonnegative gain `k`, the per-section partial gains of the `distribute`
design multiply to exactly the value `k` that `first_section` mode
assigns entirely to the first section (the remaining sections getting
gain `1`). -/
theorem C8_distribute_gain_product (v : zpk_value ℝ) (m : ℕ) (hm : 1 ≤ m)
    (hp : v.p.length = 2 * m) (hz : v.z.length = 2 * m) (hk : 0 ≤ v.k) :
    ((sos_design_args (2 * m) v sos_gain.distribute).map
        (fun sec => sec.g)).prod = v.k ∧
    (sos_design_args (2 * m) v sos_gain.first_section).map (fun sec => sec.g) =
      v.k :: List.replicate (m - 1) 1 := by
  have hsc : sos_count (2 * m) = m := by unfold sos_count; omega
  constructor
  · unfold sos_design_args build_sos
    rw [hsc, zpk_to_sos_gains m _ _ _ _ hm]
    have hd : (decide (sos_gain.distribute = sos_gain.distribute)) = true := by
      simp
    rw [hd, if_pos rfl, List.prod_cons, List.prod_replicate]
    have hg : build_sos_gain (zpk_even v).k m sos_gain.distribute =
        v.k ^ ((1 : ℝ) / (m : ℝ)) := by
      unfold build_sos_gain zpk_even
      rw [if_pos rfl]
    rw [hg, ← pow_succ', Nat.sub_add_cancel hm, ← Real.rpow_natCast
      (v.k ^ ((1 : ℝ) / (m : ℝ))) m, ← Real.rpow_mul hk]
    have hone : (1 : ℝ) / (m : ℝ) * (m : ℕ) = 1 := by
      have : (m : ℝ) ≠ 0 := by positivity
      field_simp
    rw [hone, Real.rpow_one]
  · unfold sos_design_args build_sos
    rw [hsc, zpk_to_sos_gains m _ _ _ _ hm]
    have hd : (decide (sos_gain.first_section = sos_gain.distribute)) = false := by
      simp
    rw [hd, if_neg (by simp)]
    have hg : build_sos_gain (zpk_even v).k m sos_gain.first_section = v.k := by
      unfold build_sos_gain zpk_even
      rw [if_neg (by simp)]
    rw [hg]

/-- Witness for the amended C8 at a concrete order-4 ZPK with gain 4. -/
theorem C8_witness :
    (1 ≤ 2 ∧
      (⟨[⟨0, 0⟩, ⟨0, 0⟩, ⟨0, 0⟩, ⟨0, 0⟩], [⟨0, 0⟩, ⟨0, 0⟩, ⟨0, 0⟩, ⟨0, 0⟩], 4⟩ :
        zpk_value ℝ).p.length = 2 * 2 ∧
      (⟨[⟨0, 0⟩, ⟨0, 0⟩, ⟨0, 0⟩, ⟨0, 0⟩], [⟨0, 0⟩, ⟨0, 0⟩, ⟨0, 0⟩, ⟨0, 0⟩], 4⟩ :
        zpk_value ℝ).z.length = 2 * 2 ∧
      (0 : ℝ) ≤ (⟨[⟨0, 0⟩, ⟨0, 0⟩, ⟨0, 0⟩, ⟨0, 0⟩], [⟨0, 0⟩, ⟨0, 0⟩, ⟨0, 0⟩, ⟨0, 0⟩],
        4⟩ : zpk_value ℝ).k) ∧
    (((sos_design_args (2 * 2)
          (⟨[⟨0, 0⟩, ⟨0, 0⟩, ⟨0, 0⟩, ⟨0, 0⟩], [⟨0, 0⟩, ⟨0, 0⟩, ⟨0, 0⟩, ⟨0, 0⟩], 4⟩ :
            zpk_value ℝ)
          sos_gain.distribute).map (fun sec => sec.g)).prod =
        (⟨[⟨0, 0⟩, ⟨0, 0⟩, ⟨0, 0⟩, ⟨0, 0⟩], [⟨0, 0⟩, ⟨0, 0⟩, ⟨0, 0⟩, ⟨0, 0⟩], 4⟩ :
          zpk_value ℝ).k ∧
      (sos_design_args (2 * 2)
          (⟨[⟨0, 0⟩, ⟨0, 0⟩, ⟨0, 0⟩, ⟨0, 0⟩], [⟨0, 0⟩, ⟨0, 0⟩, ⟨0, 0⟩, ⟨0, 0⟩], 4⟩ :
            zpk_value ℝ)
          sos_gain.first_section).map (fun sec => sec.g) =
        (⟨[⟨0, 0⟩, ⟨0, 0⟩, ⟨0, 0⟩, ⟨0, 0⟩], [⟨0, 0⟩, ⟨0, 0⟩, ⟨0, 0⟩, ⟨0, 0⟩], 4⟩ :
          zpk_value ℝ).k :: List.replicate (2 - 1) 1) :=
  ⟨⟨by norm_num, by norm_num, by norm_num, by norm_num⟩,
    C8_distribute_gain_product _ 2 (by norm_num) (by norm_num) (by norm_num)
      (by norm_num)⟩

theorem cnorm_cdiv [LinearOrderedField F] (a b : cplx F) (hb : cnorm b ≠ 0) :
    cnorm (cdiv a b) = cnorm a / cnorm b := by
  unfold cdiv cscale cnorm at *
  field_simp
  ring

/-- Claim C3: if every pole of the input ZPK has strictly negative real
part and `fs > 0`, then every pole of the bilinear-transformed ZPK
(`s ↦ (2·fs + s)/(2·fs - s)`) has modulus strictly below `1`. -/
theorem C3_bilinear_stability (v : zpk_value ℝ) (fs : ℝ) (hfs : 0 < fs)
    (hp : ∀ q ∈ v.p, q.re < 0) :
    ∀ q ∈ (bilinear_zpk v fs).p, cabs q < 1 := by
  intro q hq
  obtain ⟨w, hw, rfl⟩ := List.mem_map.mp hq
  have hwre : w.re < 0 := hp w hw
  have hdpos : 0 < cnorm (csub ⟨2 * fs, 0⟩ w) := by
    unfold cnorm csub
    dsimp only
    have h1 : 0 < 2 * fs - w.re := by nlinarith
    nlinarith [sq_nonneg (0 - w.im)]
  have hnorm : cnorm (bilinear_zp fs w) < 1 := by
    unfold bilinear_zp
    rw [cnorm_cdiv _ _ (ne_of_gt hdpos), div_lt_one hdpos]
    unfold cnorm cadd csub
    dsimp only
    nlinarith [hwre, hfs, mul_pos hfs (neg_pos.mpr hwre)]
  have h0 : 0 ≤ cnorm (bilinear_zp fs w) := by
    unfold cnorm
    nlinarith [sq_nonneg (bilinear_zp fs w).re, sq_nonneg (bilinear_zp fs w).im]
  unfold cabs
  calc Real.sqrt (cnorm (bilinear_zp fs w)) < Real.sqrt 1 :=
        Real.sqrt_lt_sqrt h0 hnorm
    _ = 1 := Real.sqrt_one

/-- Witness for C3 at the ZPK with the single pole `-1` and `fs = 2`. -/
theorem C3_witness :
    ((0 : ℝ) < 2 ∧ ∀ q ∈ (⟨[], [⟨-1, 0⟩], 1⟩ : zpk_value ℝ).p, q.re < 0) ∧
    ∀ q ∈ (bilinear_zpk (⟨[], [⟨-1, 0⟩], 1⟩ : zpk_value ℝ) 2).p, cabs q < 1 :=
  ⟨⟨by norm_num, by
      intro q hq
      rw [List.mem_singleton] at hq
      subst hq
      norm_num⟩,
    C3_bilinear_stability ⟨[], [⟨-1, 0⟩], 1⟩ 2 (by norm_num) (by
      intro q hq
      rw [List.mem_singleton] at hq
      subst hq
      norm_num)⟩

theorem theta_list_true (N : ℕ) :
    theta_list N true = (List.range N).map (fun (i : ℕ) =>
      (⟨0, Real.pi * ((2 * (i : ℤ) + 1 - (N : ℤ) : ℤ) : ℝ) / (2 * (N : ℝ))⟩ :
        cplx ℝ)) := by
  unfold theta_list
  simp

theorem butterworth_poles_eq (N : ℕ) :
    butterworth_poles N = (List.range N).map (fun (i : ℕ) =>
      cneg (cexp ⟨0, Real.pi * ((2 * (i : ℤ) + 1 - (N : ℤ) : ℤ) : ℝ) /
        (2 * (N : ℝ))⟩)) := by
  unfold butterworth_poles
  rw [theta_list_true, List.map_map]
  rfl

/-- Claim C4: for every order `n ≥ 1`, every Butterworth analog prototype
pole has modulus exactly `1` and strictly negative real part. -/
theorem C4_butterworth_pole_modulus (n : ℕ) (hn : 1 ≤ n) :
    ∀ q ∈ butterworth_poles n, cabs q = 1 ∧ q.re < 0 := by
  intro q hq
  rw [butterworth_poles_eq] at hq
  obtain ⟨i, hi, rfl⟩ := List.mem_map.mp hq
  rw [List.mem_range] at hi
  have h2n : (0 : ℝ) < 2 * (n : ℝ) := by positivity
  have hmhi : ((2 * (i : ℤ) + 1 - (n : ℤ) : ℤ) : ℝ) < (n : ℝ) := by
    have : (2 * (i : ℤ) + 1 - (n : ℤ)) < (n : ℤ) := by omega
    exact_mod_cast this
  have hmlo : -(n : ℝ) < ((2 * (i : ℤ) + 1 - (n : ℤ) : ℤ) : ℝ) := by
    have : -(n : ℤ) < 2 * (i : ℤ) + 1 - (n : ℤ) := by omega
    exact_mod_cast this
  constructor
  · unfold cabs cnorm cneg cexp cscale
    dsimp only
    rw [Real.exp_zero, one_mul, one_mul]
    have hid : -Real.cos (Real.pi * ((2 * (i : ℤ) + 1 - (n : ℤ) : ℤ) : ℝ) /
          (2 * (n : ℝ))) * -Real.cos (Real.pi * ((2 * (i : ℤ) + 1 - (n : ℤ) : ℤ) : ℝ) /
          (2 * (n : ℝ))) +
        -Real.sin (Real.pi * ((2 * (i : ℤ) + 1 - (n : ℤ) : ℤ) : ℝ) /
          (2 * (n : ℝ))) * -Real.sin (Real.pi * ((2 * (i : ℤ) + 1 - (n : ℤ) : ℤ) : ℝ) /
          (2 * (n : ℝ))) = 1 := by
      have := Real.sin_sq_add_cos_sq (Real.pi * ((2 * (i : ℤ) + 1 - (n : ℤ) : ℤ) : ℝ) /
        (2 * (n : ℝ)))
      nlinarith [this]
    rw [hid, Real.sqrt_one]
  · unfold cneg cexp cscale
    dsimp only
    rw [Real.exp_zero, one_mul, neg_lt_zero]
    apply Real.cos_pos_of_mem_Ioo
    constructor
    · show -(Real.pi / 2) < _
      rw [lt_div_iff h2n]
      nlinarith [Real.pi_pos, hmlo]
    · show _ < Real.pi / 2
      rw [div_lt_iff h2n]
      nlinarith [Real.pi_pos, hmhi]

/-- Witness for C4 at order `n = 2`. -/
theorem C4_witness :
    1 ≤ 2 ∧ ∀ q ∈ butterworth_poles 2, cabs q = 1 ∧ q.re < 0 :=
  ⟨by norm_num, C4_butterworth_pole_modulus 2 (by norm_num)⟩

/-- Claim C5: the spec formula `-exp(i·π·(2k+1)/(2n))` does not match the
source.  At order `n = 1` the source produces the single pole `-1`
(angle `π·(2·0+1-1)/(2·1) = 0`), while the claimed formula gives
`-exp(i·π/2) = -i`. -/
theorem C5_angle_formula_counterexample :
    butterworth_poles 1 = [⟨-1, 0⟩] ∧
    cneg (cexp ⟨0, Real.pi * (2 * 0 + 1) / (2 * 1)⟩) = ⟨0, -1⟩ ∧
    ((⟨-1, 0⟩ : cplx ℝ) ≠ ⟨0, -1⟩) := by
  refine ⟨?_, ?_, ?_⟩
  · rw [butterworth_poles_eq]
    show [cneg (cexp ⟨0, Real.pi * ((2 * ((0 : ℕ) : ℤ) + 1 - ((1 : ℕ) : ℤ) : ℤ) : ℝ) /
      (2 * ((1 : ℕ) : ℝ))⟩)] = [⟨-1, 0⟩]
    norm_num
    unfold cneg cexp cscale
    norm_num
  · have harg : Real.pi * (2 * 0 + 1) / (2 * 1) = Real.pi / 2 := by ring
    rw [harg]
    unfold cneg cexp cscale
    dsimp only
    rw [Real.exp_zero, Real.cos_pi_div_two, Real.sin_pi_div_two]
    norm_num
  · intro h
    have := congrArg cplx.re h
    norm_num at this

/-- Claim C5 (amended): the pole list of the source Butterworth prototype
has length `n` and its `k`-th pole is `-exp(i·θ_k)` for the angle
`θ_k = π·(2k+1-n)/(2n)` (not `π·(2k+1)/(2n)`); the prototype (modelled
from the spec for the absent `butterworth.h`) has no zeros and gain `1`. -/
theorem C5_butterworth_prototype (n k : ℕ) (hn : 1 ≤ n) (hk : k < n) :
    (butterworth_poles n).length = n ∧
    (butterworth_poles n).getD k ⟨0, 0⟩ =
      cneg (cexp ⟨0, Real.pi * ((2 * (k : ℤ) + 1 - (n : ℤ) : ℤ) : ℝ) /
        (2 * (n : ℝ))⟩) ∧
    (butterworth_zpk n).z = [] ∧ (butterworth_zpk n).k = 1 := by
  refine ⟨?_, ?_, rfl, rfl⟩
  · rw [butterworth_poles_eq, List.length_map, List.length_range]
  · rw [butterworth_poles_eq, List.getD_eq_getElem?_getD, List.getElem?_map,
      List.getElem?_range hk]
    rfl

/-- Witness for the amended C5 at `n = 2`, `k = 0`. -/
theorem C5_witness :
    (1 ≤ 2 ∧ 0 < 2) ∧
    ((butterworth_poles 2).length = 2 ∧
      (butterworth_poles 2).getD 0 ⟨0, 0⟩ =
        cneg (cexp ⟨0, Real.pi * ((2 * ((0 : ℕ) : ℤ) + 1 - ((2 : ℕ) : ℤ) : ℤ) : ℝ) /
          (2 * ((2 : ℕ) : ℝ))⟩) ∧
      (butterworth_zpk 2).z = [] ∧ (butterworth_zpk 2).k = 1) :=
  ⟨⟨by norm_num, by norm_num⟩, C5_butterworth_prototype 2 0 (by norm_num) (by norm_num)⟩

/-- Claim C7: counterexample.  The Chebyshev constructors perform no
ripple validation and return no error: construction is total, and at
ripple `0` the Type-I specification comes out degenerate — `rf = 0` and
(at order 1, in the exact-real model where `1/0 = 0`) a pole at the
origin instead of a left-half-plane pole — so a degraded design is
returned to the caller rather than an `InvalidRipple` error. -/
theorem C7_no_ripple_validation_counterexample :
    cheb1_rf 0 = 0 ∧ cheb1_poles 1 0 = [⟨0, 0⟩] := by
  have hrf : cheb1_rf 0 = 0 := by
    unfold cheb1_rf
    rw [mul_zero, Real.rpow_zero, sub_self, Real.sqrt_zero]
  refine ⟨hrf, ?_⟩
  have hmu : cheb1_mu 1 0 = 0 := by
    unfold cheb1_mu
    rw [hrf, div_zero, Real.arsinh_zero, mul_zero]
  unfold cheb1_poles
  rw [theta_list_true]
  simp only [List.range_succ, List.range_zero, List.nil_append, List.map_cons,
    List.map_nil, hmu]
  unfold minus_sinh cexp cadd cneg csub cdiv cscale cnorm
  norm_num

/-- Claim C7 (amended): non-positive ripple is accepted unchecked by both
Chebyshev prototypes; over the exact-real model every ripple `≤ 0` gives
the degenerate `rf = 0` (Type I) and `rf = 0` (Type II, where C++ would
produce Inf/NaN), and a degenerate design — not an error — results. -/
theorem C7_ripple_not_validated (r : ℝ) (hr : r ≤ 0) :
    cheb1_rf r = 0 ∧ cheb2_rf r = 0 := by
  have harg : (10 : ℝ) ^ ((1 / 10 : ℝ) * r) - 1 ≤ 0 := by
    have hexp : (1 / 10 : ℝ) * r ≤ 0 := by nlinarith
    have h1 : (10 : ℝ) ^ ((1 / 10 : ℝ) * r) ≤ (10 : ℝ) ^ (0 : ℝ) :=
      Real.rpow_le_rpow_of_exponent_le (by norm_num) hexp
    rw [Real.rpow_zero] at h1
    linarith
  have hs : Real.sqrt ((10 : ℝ) ^ ((1 / 10 : ℝ) * r) - 1) = 0 :=
    Real.sqrt_eq_zero'.mpr harg
  constructor
  · unfold cheb1_rf
    exact hs
  · unfold cheb2_rf
    rw [hs, div_zero]

/-- Witness for the amended C7 at ripple `-3`. -/
theorem C7_witness :
    (-3 : ℝ) ≤ 0 ∧ (cheb1_rf (-3) = 0 ∧ cheb2_rf (-3) = 0) :=
  ⟨by norm_num, C7_ripple_not_validated (-3) (by norm_num)⟩

theorem polyC_pair [CommRing F] (x y : cplx F) :
    polyC [x, y] = [⟨1, 0⟩, cneg (cadd x y), cmul x y] := by
  unfold polyC convolve_full convolve_single
  simp only [List.foldl_cons, List.foldl_nil, List.length_cons, List.length_nil,
    List.range_succ, List.range_zero, List.nil_append, List.cons_append,
    List.map_cons, List.map_nil, List.foldr_cons, List.foldr_nil, List.getD]
  norm_num [cadd, cmul, cneg, cplx.mk.injEq]

theorem cos_two_pi_div_five : Real.cos (2 * Real.pi / 5) = (Real.sqrt 5 - 1) / 4 := by
  have h2 : 2 * Real.pi / 5 = 2 * (Real.pi / 5) := by ring
  have h5 : Real.sqrt 5 ^ 2 = 5 := Real.sq_sqrt (by norm_num)
  rw [h2, Real.cos_two_mul, Real.cos_pi_div_five]
  nlinarith [h5]

theorem sin_two_pi_div_five_pos : 0 < Real.sin (2 * Real.pi / 5) := by
  apply Real.sin_pos_of_pos_of_lt_pi
  · positivity
  · nlinarith [Real.pi_pos]

theorem tan_pi_div_ten_eq :
    Real.tan (Real.pi / 10) =
      Real.cos (2 * Real.pi / 5) / Real.sin (2 * Real.pi / 5) := by
  have h : Real.pi / 10 = Real.pi / 2 - 2 * Real.pi / 5 := by ring
  rw [h, Real.tan_pi_div_two_sub, Real.tan_eq_sin_div_cos, inv_div]

theorem sqrt_five_bounds :
    (2.2360679774 : ℝ) < Real.sqrt 5 ∧ Real.sqrt 5 < 2.2360679775 := by
  have h5 : Real.sqrt 5 ^ 2 = 5 := Real.sq_sqrt (by norm_num)
  have hpos : 0 < Real.sqrt 5 := Real.sqrt_pos.mpr (by norm_num)
  constructor <;> nlinarith [h5, hpos]

theorem sqrt_two_bounds :
    (1.4142135623 : ℝ) < Real.sqrt 2 ∧ Real.sqrt 2 < 1.4142135624 := by
  have h2 : Real.sqrt 2 ^ 2 = 2 := Real.sq_sqrt (by norm_num)
  have hpos : 0 < Real.sqrt 2 := Real.sqrt_pos.mpr (by norm_num)
  constructor <;> nlinarith [h2, hpos]

theorem tan_pi_div_ten_bounds :
    (0.3249196961 : ℝ) < Real.tan (Real.pi / 10) ∧
      Real.tan (Real.pi / 10) < 0.3249196964 := by
  obtain ⟨hu1, hu2⟩ := sqrt_five_bounds
  have hc1 : (0.3090169943 : ℝ) < Real.cos (2 * Real.pi / 5) := by
    rw [cos_two_pi_div_five]; linarith
  have hc2 : Real.cos (2 * Real.pi / 5) < 0.3090169944 := by
    rw [cos_two_pi_div_five]; linarith
  have hσpos := sin_two_pi_div_five_pos
  have hσsq : Real.sin (2 * Real.pi / 5) ^ 2 =
      1 - Real.cos (2 * Real.pi / 5) ^ 2 := Real.sin_sq (2 * Real.pi / 5)
  have hσ1 : (0.9510565162 : ℝ) < Real.sin (2 * Real.pi / 5) := by
    nlinarith [hσsq, hc1, hc2, hσpos]
  have hσ2 : Real.sin (2 * Real.pi / 5) < 0.9510565164 := by
    nlinarith [hσsq, hc1, hc2, hσpos]
  have ht : Real.tan (Real.pi / 10) * Real.sin (2 * Real.pi / 5) =
      Real.cos (2 * Real.pi / 5) := by
    rw [tan_pi_div_ten_eq]
    field_simp
  constructor
  · nlinarith [ht, hσ1, hσ2, hc1, hσpos]
  · nlinarith [ht, hσ1, hσ2, hc2, hσpos]

theorem iir_warp_val : iir_warp 1000 100 = 4 * Real.tan (Real.pi / 10) := by
  unfold iir_warp warp_frequency
  have h : Real.pi * (2 * 100 / 1000) / 2 = Real.pi / 10 := by ring
  rw [h]
  ring

theorem butter2_poles :
    butterworth_poles 2 =
      [⟨-(Real.sqrt 2 / 2), Real.sqrt 2 / 2⟩,
       ⟨-(Real.sqrt 2 / 2), -(Real.sqrt 2 / 2)⟩] := by
  rw [butterworth_poles_eq]
  simp only [List.range_succ, List.range_zero, List.nil_append, List.cons_append,
    List.map_cons, List.map_nil]
  have h0 : Real.pi * ((2 * ((0 : ℕ) : ℤ) + 1 - ((2 : ℕ) : ℤ) : ℤ) : ℝ) /
      (2 * ((2 : ℕ) : ℝ)) = -(Real.pi / 4) := by push_cast; ring
  have h1 : Real.pi * ((2 * ((1 : ℕ) : ℤ) + 1 - ((2 : ℕ) : ℤ) : ℤ) : ℝ) /
      (2 * ((2 : ℕ) : ℝ)) = Real.pi / 4 := by push_cast; ring
  rw [h0, h1]
  unfold cneg cexp cscale
  norm_num [Real.cos_pi_div_four, Real.sin_pi_div_four, Real.exp_zero,
    Real.cos_neg, Real.sin_neg]

theorem lp100_lowpass :
    lowpass_zpk (butterworth_zpk 2) (4 * Real.tan (Real.pi / 10)) =
      ⟨[], [⟨-(2 * (Real.sqrt 2 * Real.tan (Real.pi / 10))),
              2 * (Real.sqrt 2 * Real.tan (Real.pi / 10))⟩,
            ⟨-(2 * (Real.sqrt 2 * Real.tan (Real.pi / 10))),
              -(2 * (Real.sqrt 2 * Real.tan (Real.pi / 10)))⟩],
        (4 * Real.tan (Real.pi / 10)) ^ 2⟩ := by
  unfold lowpass_zpk butterworth_zpk
  rw [butter2_poles]
  norm_num [cmul, cplx.mk.injEq, zpk_value.mk.injEq]
  ring_nf

theorem bilinear_pole_plus (s t : ℝ) (hs2 : s ^ 2 = 2)
    (hE : 0 < 1 + s * t + t ^ 2) :
    bilinear_zp 2 ⟨-(2 * (s * t)), 2 * (s * t)⟩ =
      ⟨(1 - t ^ 2) / (1 + s * t + t ^ 2), s * t / (1 + s * t + t ^ 2)⟩ := by
  unfold bilinear_zp cdiv cadd csub cscale cnorm
  dsimp only
  have hn : (2 * 2 - -(2 * (s * t))) * (2 * 2 - -(2 * (s * t))) +
      (0 - 2 * (s * t)) * (0 - 2 * (s * t)) = 16 * (1 + s * t + t ^ 2) := by
    ring_nf
    simp only [hs2]
    ring
  rw [hn]
  have hEne : (1 + s * t + t ^ 2) ≠ 0 := ne_of_gt hE
  have hre : (2 * 2 + -(2 * (s * t))) * (2 * 2 - -(2 * (s * t))) +
      (0 + 2 * (s * t)) * (0 - 2 * (s * t)) = 16 * (1 - t ^ 2) := by
    ring_nf
    simp only [hs2]
    ring
  have him : (0 + 2 * (s * t)) * (2 * 2 - -(2 * (s * t))) -
      (2 * 2 + -(2 * (s * t))) * (0 - 2 * (s * t)) = 16 * (s * t) := by
    ring
  rw [hre, him, cplx.mk.injEq]
  constructor
  · field_simp
    ring
  · field_simp
    ring

theorem bilinear_pole_minus (s t : ℝ) (hs2 : s ^ 2 = 2)
    (hE : 0 < 1 + s * t + t ^ 2) :
    bilinear_zp 2 ⟨-(2 * (s * t)), -(2 * (s * t))⟩ =
      ⟨(1 - t ^ 2) / (1 + s * t + t ^ 2), -(s * t / (1 + s * t + t ^ 2))⟩ := by
  unfold bilinear_zp cdiv cadd csub cscale cnorm
  dsimp only
  have hn : (2 * 2 - -(2 * (s * t))) * (2 * 2 - -(2 * (s * t))) +
      (0 - -(2 * (s * t))) * (0 - -(2 * (s * t))) = 16 * (1 + s * t + t ^ 2) := by
    ring_nf
    simp only [hs2]
    ring
  rw [hn]
  have hEne : (1 + s * t + t ^ 2) ≠ 0 := ne_of_gt hE
  have hre : (2 * 2 + -(2 * (s * t))) * (2 * 2 - -(2 * (s * t))) +
      (0 + -(2 * (s * t))) * (0 - -(2 * (s * t))) = 16 * (1 - t ^ 2) := by
    ring_nf
    simp only [hs2]
    ring
  have him : (0 + -(2 * (s * t))) * (2 * 2 - -(2 * (s * t))) -
      (2 * 2 + -(2 * (s * t))) * (0 - -(2 * (s * t))) = 16 * (-(s * t)) := by
    ring
  rw [hre, him, cplx.mk.injEq]
  constructor
  · field_simp
    ring
  · field_simp
    ring

theorem bilinear_gain_eval (s t : ℝ) (hs2 : s ^ 2 = 2)
    (hE : 0 < 1 + s * t + t ^ 2) :
    (4 * t) ^ 2 * (cdiv ⟨1, 0⟩ (vreduce (bilinear_gain_step 2) ⟨1, 0⟩
        [⟨-(2 * (s * t)), 2 * (s * t)⟩, ⟨-(2 * (s * t)), -(2 * (s * t))⟩])).re =
      t ^ 2 / (1 + s * t + t ^ 2) := by
  have hP : vreduce (bilinear_gain_step 2) ⟨1, 0⟩
      [⟨-(2 * (s * t)), 2 * (s * t)⟩, ⟨-(2 * (s * t)), -(2 * (s * t))⟩] =
        (⟨16 * (1 + s * t + t ^ 2), 0⟩ : cplx ℝ) := by
    unfold vreduce bilinear_gain_step cmul csub
    simp only [List.reverse_cons, List.reverse_nil, List.nil_append,
      List.cons_append, List.foldl_cons, List.foldl_nil]
    rw [cplx.mk.injEq]
    constructor
    · ring_nf
      simp only [hs2]
      ring
    · ring
  rw [hP]
  unfold cdiv cscale cnorm
  dsimp only
  have hEne : (1 + s * t + t ^ 2) ≠ 0 := ne_of_gt hE
  field_simp
  ring

theorem lp100_zpk :
    (iir_lowpass 1000 (butterworth_zpk 2) 100).z = [⟨-1, 0⟩, ⟨-1, 0⟩] ∧
    (iir_lowpass 1000 (butterworth_zpk 2) 100).p =
      [⟨(1 - Real.tan (Real.pi / 10) ^ 2) /
          (1 + Real.sqrt 2 * Real.tan (Real.pi / 10) + Real.tan (Real.pi / 10) ^ 2),
        Real.sqrt 2 * Real.tan (Real.pi / 10) /
          (1 + Real.sqrt 2 * Real.tan (Real.pi / 10) + Real.tan (Real.pi / 10) ^ 2)⟩,
       ⟨(1 - Real.tan (Real.pi / 10) ^ 2) /
          (1 + Real.sqrt 2 * Real.tan (Real.pi / 10) + Real.tan (Real.pi / 10) ^ 2),
        -(Real.sqrt 2 * Real.tan (Real.pi / 10) /
          (1 + Real.sqrt 2 * Real.tan (Real.pi / 10) + Real.tan (Real.pi / 10) ^ 2))⟩] ∧
    (iir_lowpass 1000 (butterworth_zpk 2) 100).k =
      Real.tan (Real.pi / 10) ^ 2 /
        (1 + Real.sqrt 2 * Real.tan (Real.pi / 10) + Real.tan (Real.pi / 10) ^ 2) := by
  have hs2 : Real.sqrt 2 ^ 2 = 2 := Real.sq_sqrt (by norm_num)
  have htpos : 0 < Real.tan (Real.pi / 10) := by
    have h := tan_pi_div_ten_bounds.1
    linarith
  have hspos : 0 < Real.sqrt 2 := Real.sqrt_pos.mpr (by norm_num)
  have hE : 0 < 1 + Real.sqrt 2 * Real.tan (Real.pi / 10) +
      Real.tan (Real.pi / 10) ^ 2 := by nlinarith
  unfold iir_lowpass
  rw [iir_warp_val, lp100_lowpass]
  unfold bilinear_zpk
  refine ⟨?_, ?_, ?_⟩
  · dsimp only
    norm_num [List.replicate]
  · dsimp only [List.map_cons, List.map_nil]
    rw [bilinear_pole_plus _ _ hs2 hE, bilinear_pole_minus _ _ hs2 hE]
  · dsimp only
    exact bilinear_gain_eval _ _ hs2 hE

theorem lp100_b :
    poly_b (iir_lowpass 1000 (butterworth_zpk 2) 100) =
      [Real.tan (Real.pi / 10) ^ 2 /
          (1 + Real.sqrt 2 * Real.tan (Real.pi / 10) + Real.tan (Real.pi / 10) ^ 2),
       2 * (Real.tan (Real.pi / 10) ^ 2 /
          (1 + Real.sqrt 2 * Real.tan (Real.pi / 10) + Real.tan (Real.pi / 10) ^ 2)),
       Real.tan (Real.pi / 10) ^ 2 /
          (1 + Real.sqrt 2 * Real.tan (Real.pi / 10) + Real.tan (Real.pi / 10) ^ 2)] := by
  obtain ⟨hz, hp, hk⟩ := lp100_zpk
  unfold poly_b
  rw [hz, hk, polyC_pair]
  norm_num [cadd, cneg, cmul]
  ring

theorem lp100_a :
    poly_a (iir_lowpass 1000 (butterworth_zpk 2) 100) =
      [1,
       -(2 * ((1 - Real.tan (Real.pi / 10) ^ 2) /
          (1 + Real.sqrt 2 * Real.tan (Real.pi / 10) + Real.tan (Real.pi / 10) ^ 2))),
       ((1 - Real.tan (Real.pi / 10) ^ 2) /
          (1 + Real.sqrt 2 * Real.tan (Real.pi / 10) + Real.tan (Real.pi / 10) ^ 2)) ^ 2 +
        (Real.sqrt 2 * Real.tan (Real.pi / 10) /
          (1 + Real.sqrt 2 * Real.tan (Real.pi / 10) + Real.tan (Real.pi / 10) ^ 2)) ^ 2] := by
  obtain ⟨hz, hp, hk⟩ := lp100_zpk
  unfold poly_a
  rw [hp, polyC_pair]
  norm_num [cadd, cneg, cmul]
  constructor
  · ring
  · ring

set_option maxHeartbeats 1000000 in
/-- Claim C1: the order-2 Butterworth lowpass design at sample rate 1000
and cutoff 100 (pre-warp, lowpass denormalization, bilinear transform,
polynomial assembly) produces the coefficients
`b = [0.0674553, 0.1349105, 0.0674553]`, `a = [1, -1.1429805, 0.4128016]`
within `1e-7`. -/
theorem C1_butter2_lowpass_coefficients :
    |(poly_b (iir_lowpass 1000 (butterworth_zpk 2) 100)).getD 0 0 - 0.0674553| < 1e-7 ∧
    |(poly_b (iir_lowpass 1000 (butterworth_zpk 2) 100)).getD 1 0 - 0.1349105| < 1e-7 ∧
    |(poly_b (iir_lowpass 1000 (butterworth_zpk 2) 100)).getD 2 0 - 0.0674553| < 1e-7 ∧
    (poly_a (iir_lowpass 1000 (butterworth_zpk 2) 100)).getD 0 0 = 1 ∧
    |(poly_a (iir_lowpass 1000 (butterworth_zpk 2) 100)).getD 1 0 - (-1.1429805)| < 1e-7 ∧
    |(poly_a (iir_lowpass 1000 (butterworth_zpk 2) 100)).getD 2 0 - 0.4128016| < 1e-7 := by
  rw [lp100_b, lp100_a]
  simp only [List.getD_cons_zero, List.getD_cons_succ]
  obtain ⟨ht1, ht2⟩ := tan_pi_div_ten_bounds
  obtain ⟨hv1, hv2⟩ := sqrt_two_bounds
  set t := Real.tan (Real.pi / 10) with htdef
  set s := Real.sqrt 2 with hsdef
  have htpos : 0 < t := by linarith
  have hspos : 0 < s := by linarith
  have hst1 : (1.4142135623 : ℝ) * 0.3249196961 < s * t := by nlinarith
  have hst2 : s * t < (1.4142135624 : ℝ) * 0.3249196964 := by nlinarith
  have ht1sq : (0.3249196961 : ℝ) ^ 2 < t ^ 2 := by nlinarith
  have ht2sq : t ^ 2 < (0.3249196964 : ℝ) ^ 2 := by nlinarith
  have hE1 : (1.5650786497 : ℝ) < 1 + s * t + t ^ 2 := by nlinarith
  have hE2 : 1 + s * t + t ^ 2 < (1.5650786505 : ℝ) := by nlinarith
  have hEpos : (0 : ℝ) < 1 + s * t + t ^ 2 := by linarith
  have hb0lo : (0.06745527 : ℝ) < t ^ 2 / (1 + s * t + t ^ 2) := by
    rw [lt_div_iff hEpos]
    nlinarith
  have hb0hi : t ^ 2 / (1 + s * t + t ^ 2) < (0.06745528 : ℝ) := by
    rw [div_lt_iff hEpos]
    nlinarith
  have hAlo : (0.5714902505 : ℝ) < (1 - t ^ 2) / (1 + s * t + t ^ 2) := by
    rw [lt_div_iff hEpos]
    nlinarith
  have hAhi : (1 - t ^ 2) / (1 + s * t + t ^ 2) < (0.5714902520 : ℝ) := by
    rw [div_lt_iff hEpos]
    nlinarith
  have hBlo : (0.2935992004 : ℝ) < s * t / (1 + s * t + t ^ 2) := by
    rw [lt_div_iff hEpos]
    nlinarith
  have hBhi : s * t / (1 + s * t + t ^ 2) < (0.2935992015 : ℝ) := by
    rw [div_lt_iff hEpos]
    nlinarith
  have hA2lo : (0.5714902505 : ℝ) ^ 2 < ((1 - t ^ 2) / (1 + s * t + t ^ 2)) ^ 2 := by
    nlinarith
  have hA2hi : ((1 - t ^ 2) / (1 + s * t + t ^ 2)) ^ 2 < (0.5714902520 : ℝ) ^ 2 := by
    nlinarith
  have hB2lo : (0.2935992004 : ℝ) ^ 2 < (s * t / (1 + s * t + t ^ 2)) ^ 2 := by
    nlinarith
  have hB2hi : (s * t / (1 + s * t + t ^ 2)) ^ 2 < (0.2935992015 : ℝ) ^ 2 := by
    nlinarith
  refine ⟨?_, ?_, ?_, trivial, ?_, ?_⟩
  · rw [abs_lt]
    constructor <;> nlinarith
  · rw [abs_lt]
    constructor <;> nlinarith
  · rw [abs_lt]
    constructor <;> nlinarith
  · rw [abs_lt]
    constructor <;> nlinarith
  · rw [abs_lt]
    constructor <;> nlinarith

set_option maxRecDepth 10000 in
/-- Claim C6: when the pole selected first is real, the source partner
selection `next_real_pole_index` (built on
`unit_circle_distance_real_less`) is supposed to prefer remaining real
poles; on the pole set `{0.3+0.4i, 0.3-0.4i, 0}` it instead returns
index `0` — the complex pole `0.3+0.4i` — even though the real pole `0`
is available at index `2`. -/
theorem C6_next_real_pole_prefers_complex :
    next_real_pole_index
        ([⟨3/10, 2/5⟩, ⟨3/10, -(2/5)⟩, ⟨0, 0⟩] : List (cplx ℚ)) = 0 ∧
    cIsReal (([⟨3/10, 2/5⟩, ⟨3/10, -(2/5)⟩, ⟨0, 0⟩] :
        List (cplx ℚ)).getD 0 ⟨0, 0⟩) = false ∧
    cIsReal (([⟨3/10, 2/5⟩, ⟨3/10, -(2/5)⟩, ⟨0, 0⟩] :
        List (cplx ℚ)).getD 2 ⟨0, 0⟩) = true := by
  refine ⟨?_, ?_, ?_⟩ <;> with_unfolding_all decide

set_option maxRecDepth 10000 in
/-- Claim C2: a conjugate-paired order-3 ZPK (zeros `-1,-1,-1`, poles
`0.9, 0.3±0.4i`, gain `1`) on which a fresh SOS cascade and a fresh
direct-form instance disagree exactly, over exact rational arithmetic,
already at the third sample of the input `1, 0, 0`: the pairing step puts
the real pole `0.9` and the complex pole `0.3+0.4i` into one section, and
taking real parts of that section's polynomial changes the transfer
function. -/
theorem C2_cascade_vs_direct_counterexample :
    poly_outputs
        (poly_b (⟨[⟨-1, 0⟩, ⟨-1, 0⟩, ⟨-1, 0⟩],
          [⟨9/10, 0⟩, ⟨3/10, 2/5⟩, ⟨3/10, -(2/5)⟩], 1⟩ : zpk_value ℚ))
        (poly_a (⟨[⟨-1, 0⟩, ⟨-1, 0⟩, ⟨-1, 0⟩],
          [⟨9/10, 0⟩, ⟨3/10, 2/5⟩, ⟨3/10, -(2/5)⟩], 1⟩ : zpk_value ℚ))
        3 [1, 0, 0] ≠
      sos_outputs
        (sos_design_first 3 (⟨[⟨-1, 0⟩, ⟨-1, 0⟩, ⟨-1, 0⟩],
          [⟨9/10, 0⟩, ⟨3/10, 2/5⟩, ⟨3/10, -(2/5)⟩], 1⟩ : zpk_value ℚ))
        [1, 0, 0] := by
  with_unfolding_all decide

end LibEmbedded
